import Mathlib

/-!
# Verification of the PASETO v2.local codec

A shallow embedding of the Go package implementing PASETO v2.local tokens
(`Encrypt`, `Decrypt`, `pae`, `le64`, `decodeBase64`, the `v2local` header),
together with proofs about it.

Byte slices are modelled as `List Nat` whose entries are below 256
(`isBytes`).  Go's `nil` slice is modelled as `none` where the distinction
between `nil` and a zero-length slice is observable (the footer argument of
`Encrypt`, the `payload`/`footer` results of `Decrypt`).

The external cryptographic primitives (`golang.org/x/crypto/blake2b` and
`golang.org/x/crypto/chacha20poly1305`) are not part of the repository; they
are modelled as a parameter structure `Crypto` carrying exactly their
documented interface contracts.  Go's `encoding/base64` RawURLEncoding is
modelled concretely, since the token framing depends on its behaviour.
-/

/-- A list of naturals that is a faithful image of a Go byte slice:
every entry is an 8-bit value. -/
def isBytes (l : List Nat) : Prop := ∀ x ∈ l, x < 256

instance isBytes_decidable (l : List Nat) : Decidable (isBytes l) := by
  unfold isBytes; exact List.decidableBAll _ l

/-! ## `le64` and `pae` (pre-authentication encoding), from the source -/

/-- `le64(n, b)` from the source: write `uint64(n) << 1 >> 1` (the value with
its most significant bit cleared) into 8 bytes, little-endian, via
`binary.LittleEndian.PutUint64`.  Byte `i` is `u >> (8*i) & 0xff`. -/
def le64 (n : Nat) : List Nat :=
  let u := n % 18446744073709551616 % 9223372036854775808
  [u % 256, u / 256 % 256, u / 65536 % 256, u / 16777216 % 256,
   u / 4294967296 % 256, u / 1099511627776 % 256,
   u / 281474976710656 % 256, u / 72057594037927936 % 256]

/-- Go's `copy(buf[off:], src)` for the in-bounds case: overwrite the bytes
of `buf` starting at offset `off` with `src`. -/
def writeAt (buf : List Nat) (off : Nat) (src : List Nat) : List Nat :=
  buf.take off ++ src ++ buf.drop (off + src.length)

/-- One iteration of the loop in `pae`: write `le64(len(b))` at the current
offset, then the raw bytes of `b`, and advance the offset. -/
def paeStep (st : List Nat × Nat) (b : List Nat) : List Nat × Nat :=
  (writeAt (writeAt st.1 st.2 (le64 b.length)) (st.2 + 8) b,
   st.2 + 8 + b.length)

/-- `pae` from the source: allocate a zeroed buffer of size
`8 + 8*len(bb) + sum of lengths`, write `le64(len(bb))` at offset 0, then for
each element write `le64(len(b))` followed by the raw bytes of `b`,
maintaining a running offset. -/
def pae (bb : List (List Nat)) : List Nat :=
  let n := 8 + 8 * bb.length + (bb.map List.length).sum
  let buf := writeAt (List.replicate n 0) 0 (le64 bb.length)
  (bb.foldl paeStep (buf, 8)).1

/-- Modelled from the spec: an 8-byte little-endian encoding of `n` as an
unsigned 63-bit value, i.e. with the top bit of the 8-byte field cleared.
Byte `i` carries bits `8*i .. 8*i+7`. -/
def le64Spec (n : Nat) : List Nat :=
  (List.range 8).map (fun i => n % 2 ^ 63 / 2 ^ (8 * i) % 256)

/-- Modelled from the spec: the PAE output format — the 8-byte little-endian
count of elements, then for each element in order its 8-byte little-endian
length followed by its raw bytes, with no delimiters between elements. -/
def paeSpec (bb : List (List Nat)) : List Nat :=
  le64Spec bb.length ++ (bb.map (fun b => le64Spec b.length ++ b)).flatten

/-! ## Go's `encoding/base64` RawURLEncoding -/

/-- Character `i` of the URL-safe base64 alphabet
`A..Z a..z 0..9 - _`, as an ASCII code. -/
def b64char (i : Nat) : Nat :=
  if i < 26 then 65 + i
  else if i < 52 then 97 + (i - 26)
  else if i < 62 then 48 + (i - 52)
  else if i = 62 then 45
  else 95

/-- The inverse alphabet map of Go's URL-safe base64 decoder: `none` for any
byte outside the alphabet (including `=`, which is not a padding character
for the Raw encodings). -/
def b64decodeChar (c : Nat) : Option Nat :=
  if 65 ≤ c ∧ c ≤ 90 then some (c - 65)
  else if 97 ≤ c ∧ c ≤ 122 then some (c - 97 + 26)
  else if 48 ≤ c ∧ c ≤ 57 then some (c - 48 + 52)
  else if c = 45 then some 62
  else if c = 95 then some 63
  else none

/-- `base64.RawURLEncoding.Encode`: groups of 3 bytes become 4 characters; a
trailing group of 2 bytes becomes 3 characters and a trailing single byte
becomes 2 characters (no padding). -/
def rawURLEncode : List Nat → List Nat
  | b0 :: b1 :: b2 :: rest =>
      b64char (b0 / 4) :: b64char (b0 % 4 * 16 + b1 / 16) ::
      b64char (b1 % 16 * 4 + b2 / 64) :: b64char (b2 % 64) :: rawURLEncode rest
  | [b0, b1] => [b64char (b0 / 4), b64char (b0 % 4 * 16 + b1 / 16), b64char (b1 % 16 * 4)]
  | [b0] => [b64char (b0 / 4), b64char (b0 % 4 * 16)]
  | [] => []

/-- The quantum loop of `base64.RawURLEncoding.Decode` after newline
removal: groups of 4 characters yield 3 bytes; a trailing group of 2 or 3
characters yields 1 or 2 bytes; a trailing single character is an error, as
is any character outside the alphabet.  Unused trailing bits are ignored
(the decoder is not strict). -/
def rawURLDecodeChunks : List Nat → Option (List Nat)
  | [] => some []
  | [_] => none
  | [c0, c1] =>
      match b64decodeChar c0, b64decodeChar c1 with
      | some d0, some d1 => some [d0 * 4 + d1 / 16]
      | _, _ => none
  | [c0, c1, c2] =>
      match b64decodeChar c0, b64decodeChar c1, b64decodeChar c2 with
      | some d0, some d1, some d2 =>
          some [d0 * 4 + d1 / 16, d1 % 16 * 16 + d2 / 4]
      | _, _, _ => none
  | c0 :: c1 :: c2 :: c3 :: rest =>
      match b64decodeChar c0, b64decodeChar c1, b64decodeChar c2,
            b64decodeChar c3, rawURLDecodeChunks rest with
      | some d0, some d1, some d2, some d3, some bs =>
          some ((d0 * 4 + d1 / 16) :: (d1 % 16 * 16 + d2 / 4) :: (d2 % 4 * 64 + d3) :: bs)
      | _, _, _, _, _ => none

/-- `base64.RawURLEncoding.Decode`: carriage returns and newlines are
skipped, everything else is decoded in quanta of four characters. -/
def rawURLDecode (src : List Nat) : Option (List Nat) :=
  rawURLDecodeChunks (src.filter (fun c => !(c == 10 || c == 13)))

/-- `decodeBase64` from the source: decode `src` with RawURLEncoding,
returning the decoded bytes and an ok flag (`none` here models
`nil, false`). -/
def decodeBase64 (src : List Nat) : Option (List Nat) :=
  rawURLDecode src

/-- The `v2local` header constant from the source: the ASCII bytes of
"v2.local.". -/
def v2local : List Nat := [118, 50, 46, 108, 111, 99, 97, 108, 46]

/-! ## External primitives -/

/-- The failure condition of `blake2b.New(size, key)` from
`golang.org/x/crypto/blake2b`: it errors exactly when the requested digest
size is outside `1..64` or the key is longer than 64 bytes. -/
def blake2bNewOk (size keylen : Nat) : Bool :=
  decide (1 ≤ size) && decide (size ≤ 64) && decide (keylen ≤ 64)

/-- The outcome of one call to the `randRead` hook on a 24-byte buffer:
`bytes` is what the source wrote into the buffer (at most the first 24 are
used) and `err` is whether the read reported an error.  `crypto/rand.Read`
fills the whole buffer whenever `err` is false, but the hook is replaceable
and a general reader may write fewer bytes with a nil error. -/
structure RandSource where
  bytes : List Nat
  err : Bool

/-- The contents of the 24-byte seed buffer after the `randRead` call: the
buffer comes from `make` and is zero-initialized, so unwritten positions
hold 0. -/
def seedOf (r : RandSource) : List Nat :=
  let w := r.bytes.take 24
  w ++ List.replicate (24 - w.length) 0

/-- The external cryptographic primitives with their documented contracts:
`blake` is `blake2b.New(24, key)` followed by `Write(m)`/`Sum` (a 24-byte
keyed digest); `seal`/`opn` are XChaCha20-Poly1305 `Seal` and `Open` with a
16-byte appended tag, for a 32-byte key and 24-byte nonce. -/
structure Crypto where
  blake : List Nat → List Nat → List Nat
  aeadSeal : List Nat → List Nat → List Nat → List Nat → List Nat
  aeadOpen : List Nat → List Nat → List Nat → List Nat → Option (List Nat)
  blake_length : ∀ key m, (blake key m).length = 24
  blake_bytes : ∀ key m, isBytes (blake key m)
  seal_length : ∀ k n m ad, k.length = 32 → n.length = 24 →
    (aeadSeal k n m ad).length = m.length + 16
  seal_bytes : ∀ k n m ad, k.length = 32 → n.length = 24 → isBytes m →
    isBytes (aeadSeal k n m ad)
  opn_seal : ∀ k n m ad, k.length = 32 → n.length = 24 →
    aeadOpen k n (aeadSeal k n m ad) ad = some m

/-! ## `Encrypt` and `Decrypt` -/

/-- `Encrypt(message, key, footer)` from the source, parameterized by the
external primitives `C` and the behaviour `r` of the `randRead` hook.  The
result models Go's `([]byte, error)` pair as
`(token or nil, whether an error was returned)`:

1. `chacha20poly1305.NewX(k)` errors exactly when the key is not 32 bytes.
2. `randRead` on the seed buffer: only a reported error aborts.
3. `blake2b.New(24, seed)` keyed with the seed buffer digests `m` into the
   24-byte nonce `n`.
4. `preAuth = pae(h, n, f)`.
5. `nc = n ++ Seal(key, n, m, preAuth)`.
6. The token is `h ++ b64(nc)`, plus `"." ++ b64(f)` when `f` is
   non-empty.  A `nil` footer behaves as the empty footer (only `len(f)`
   and the bytes of `f` are consulted). -/
def Encrypt (C : Crypto) (r : RandSource) (message key : List Nat)
    (footer : Option (List Nat)) : Option (List Nat) × Bool :=
  let m := message
  let k := key
  let f := footer.getD []
  if k.length ≠ 32 then (none, true)
  else if r.err then (none, true)
  else if !(blake2bNewOk 24 (seedOf r).length) then (none, true)
  else
    let n := C.blake (seedOf r) m
    let preAuth := pae [v2local, n, f]
    let nc := n ++ C.aeadSeal k n m preAuth
    let out := v2local ++ rawURLEncode nc ++
      (if 0 < f.length then 46 :: rawURLEncode f else [])
    (some out, false)

/-- The observable outcome of `Decrypt`: either a run-time fault (a Go
slice-bounds-out-of-range fault from `raw[:24]` / `raw[24:]`) or a
`(payload, footer, ok)` triple, where `none` models a `nil` slice. -/
inductive DecryptResult where
  | panics : DecryptResult
  | ret (payload footer : Option (List Nat)) (ok : Bool) : DecryptResult
  deriving DecidableEq

/-- The tail of `Decrypt` after the header has been stripped and the footer
segment (if any) split off and decoded: base64-decode the body `m`, slice
off the 24-byte nonce — `raw[:24]` and `raw[24:]` fault when fewer than 24
bytes were decoded — build `preAuth`, construct the AEAD (`NewX` errors on
a key that is not 32 bytes) and open the ciphertext. -/
def decryptBody (C : Crypto) (k : List Nat) (footer : Option (List Nat))
    (m : List Nat) : DecryptResult :=
  match decodeBase64 m with
  | none => .ret none none false
  | some raw =>
    if raw.length < 24 then .panics
    else
      let n := raw.take 24
      let c := raw.drop 24
      let preAuth := pae [v2local, n, footer.getD []]
      if k.length ≠ 32 then .ret none none false
      else
        match C.aeadOpen k n c preAuth with
        | none => .ret none none false
        | some payload => .ret (some payload) footer true

/-- `Decrypt(token, key)` from the source: verify the `v2.local.` prefix,
strip it, split at the first `.` (everything after it is the base64url
footer; a failed footer decode aborts), then process the body with
`decryptBody`.  When no `.` is present the `footer` named return stays
`nil`. -/
def Decrypt (C : Crypto) (token key : List Nat) : DecryptResult :=
  let m := token
  let k := key
  let h := v2local
  if h.isPrefixOf m then
    let m1 := m.drop h.length
    match m1.findIdx? (fun c => c == 46) with
    | some i =>
      match decodeBase64 (m1.drop (i + 1)) with
      | none => .ret none none false
      | some fdec => decryptBody C k (some fdec) (m1.take i)
    | none => decryptBody C k none m1
  else .ret none none false

/-! ## A concrete instance of the external primitives

Used to evaluate the embedding on closed inputs.  It satisfies the
interface contract of `Crypto` (it is not the real cipher: the claims about
this codec depend only on the contract). -/

/-- A concrete `Crypto` instance: the digest is 24 zero bytes and sealing
appends a 16-byte zero tag. -/
def modelCrypto : Crypto where
  blake := fun _ _ => List.replicate 24 0
  aeadSeal := fun _ _ m _ => m ++ List.replicate 16 0
  aeadOpen := fun _ _ c _ =>
    if 16 ≤ c.length then some (c.take (c.length - 16)) else none
  blake_length := fun _ _ => by simp
  blake_bytes := fun _ _ x hx => by
    simp only [List.mem_replicate] at hx; omega
  seal_length := fun _ _ m _ _ _ => by simp
  seal_bytes := fun _ _ m _ _ _ hm x hx => by
    rcases List.mem_append.mp hx with h | h
    · exact hm x h
    · simp only [List.mem_replicate] at h; omega
  opn_seal := fun k n m ad _ _ => by
    have hlen : 16 ≤ (m ++ List.replicate 16 0).length := by simp
    simp [hlen, List.take_left]

/-! ## Lemmas about the base64 model -/

theorem b64char_ne_special (i : Nat) :
    b64char i ≠ 10 ∧ b64char i ≠ 13 ∧ b64char i ≠ 46 := by
  unfold b64char
  split
  · omega
  · split
    · omega
    · split
      · omega
      · split <;> omega

theorem b64char_roundtrip : ∀ d, d < 64 → b64decodeChar (b64char d) = some d := by
  decide

theorem rawURLEncode_mem (l : List Nat) :
    ∀ c ∈ rawURLEncode l, c ≠ 10 ∧ c ≠ 13 ∧ c ≠ 46 := by
  induction l using rawURLEncode.induct with
  | case1 b0 b1 b2 rest ih =>
    intro c hc
    simp only [rawURLEncode, List.mem_cons] at hc
    rcases hc with rfl | rfl | rfl | rfl | hc
    · exact b64char_ne_special _
    · exact b64char_ne_special _
    · exact b64char_ne_special _
    · exact b64char_ne_special _
    · exact ih c hc
  | case2 b0 b1 =>
    intro c hc
    simp only [rawURLEncode, List.mem_cons, List.not_mem_nil, or_false] at hc
    rcases hc with rfl | rfl | rfl <;> exact b64char_ne_special _
  | case3 b0 =>
    intro c hc
    simp only [rawURLEncode, List.mem_cons, List.not_mem_nil, or_false] at hc
    rcases hc with rfl | rfl <;> exact b64char_ne_special _
  | case4 =>
    intro c hc
    simp [rawURLEncode] at hc

theorem rawURLEncode_filter (l : List Nat) :
    (rawURLEncode l).filter (fun c => !(c == 10 || c == 13)) = rawURLEncode l := by
  rw [List.filter_eq_self]
  intro a ha
  have h := rawURLEncode_mem l a ha
  simp [h.1, h.2.1]

theorem dot_not_mem_rawURLEncode (l : List Nat) : 46 ∉ rawURLEncode l :=
  fun hm => (rawURLEncode_mem l 46 hm).2.2 rfl

theorem rawURLDecodeChunks_encode (l : List Nat) (h : isBytes l) :
    rawURLDecodeChunks (rawURLEncode l) = some l := by
  induction l using rawURLEncode.induct with
  | case1 b0 b1 b2 rest ih =>
    have h0 : b0 < 256 := h _ (by simp)
    have h1 : b1 < 256 := h _ (by simp)
    have h2 : b2 < 256 := h _ (by simp)
    have e0 := b64char_roundtrip (b0 / 4) (by omega)
    have e1 := b64char_roundtrip (b0 % 4 * 16 + b1 / 16) (by omega)
    have e2 := b64char_roundtrip (b1 % 16 * 4 + b2 / 64) (by omega)
    have e3 := b64char_roundtrip (b2 % 64) (by omega)
    have ih' := ih (fun x hx => h x (by simp [hx]))
    simp only [rawURLEncode, rawURLDecodeChunks, e0, e1, e2, e3, ih']
    refine congrArg some ?_
    have : b0 / 4 * 4 + (b0 % 4 * 16 + b1 / 16) / 16 = b0 := by omega
    have : (b0 % 4 * 16 + b1 / 16) % 16 * 16 + (b1 % 16 * 4 + b2 / 64) / 4 = b1 := by omega
    have : (b1 % 16 * 4 + b2 / 64) % 4 * 64 + b2 % 64 = b2 := by omega
    simp_all
  | case2 b0 b1 =>
    have h0 : b0 < 256 := h _ (by simp)
    have h1 : b1 < 256 := h _ (by simp)
    have e0 := b64char_roundtrip (b0 / 4) (by omega)
    have e1 := b64char_roundtrip (b0 % 4 * 16 + b1 / 16) (by omega)
    have e2 := b64char_roundtrip (b1 % 16 * 4) (by omega)
    simp only [rawURLEncode, rawURLDecodeChunks, e0, e1, e2]
    refine congrArg some ?_
    have : b0 / 4 * 4 + (b0 % 4 * 16 + b1 / 16) / 16 = b0 := by omega
    have : (b0 % 4 * 16 + b1 / 16) % 16 * 16 + b1 % 16 * 4 / 4 = b1 := by omega
    simp_all
  | case3 b0 =>
    have h0 : b0 < 256 := h _ (by simp)
    have e0 := b64char_roundtrip (b0 / 4) (by omega)
    have e1 := b64char_roundtrip (b0 % 4 * 16) (by omega)
    simp only [rawURLEncode, rawURLDecodeChunks, e0, e1]
    refine congrArg some ?_
    have : b0 / 4 * 4 + b0 % 4 * 16 / 16 = b0 := by omega
    simp_all
  | case4 => rfl

theorem rawURLDecode_encode (l : List Nat) (h : isBytes l) :
    rawURLDecode (rawURLEncode l) = some l := by
  unfold rawURLDecode
  rw [rawURLEncode_filter]
  exact rawURLDecodeChunks_encode l h

theorem decodeBase64_encode (l : List Nat) (h : isBytes l) :
    decodeBase64 (rawURLEncode l) = some l :=
  rawURLDecode_encode l h

/-! ## Lemmas about `pae` -/

theorem le64_length (n : Nat) : (le64 n).length = 8 := rfl

theorem writeAt_append (P Z src : List Nat) :
    writeAt (P ++ Z) P.length src = P ++ src ++ Z.drop src.length := by
  unfold writeAt
  rw [List.take_left, ← List.drop_drop, List.drop_left]

theorem pae_loop (bb : List (List Nat)) (P : List Nat) :
    (bb.foldl paeStep
      (P ++ List.replicate (8 * bb.length + (bb.map List.length).sum) 0,
       P.length)).1
    = P ++ (bb.map (fun b => le64 b.length ++ b)).flatten := by
  induction bb generalizing P with
  | nil => simp
  | cons b rest ih =>
    rw [List.foldl_cons]
    have hz : List.replicate (8 * (b :: rest).length + ((b :: rest).map List.length).sum) 0
        = List.replicate 8 0 ++ List.replicate b.length 0 ++
          List.replicate (8 * rest.length + (rest.map List.length).sum) 0 := by
      rw [← List.replicate_add, ← List.replicate_add]
      congr 1
      simp
      ring
    have hstep : paeStep
        (P ++ List.replicate (8 * (b :: rest).length + ((b :: rest).map List.length).sum) 0,
         P.length)
        b
        = ((P ++ le64 b.length ++ b) ++
            List.replicate (8 * rest.length + (rest.map List.length).sum) 0,
           (P ++ le64 b.length ++ b).length) := by
      dsimp only [paeStep]
      rw [hz, writeAt_append, List.append_assoc (List.replicate 8 0)]
      rw [List.drop_left' (by simp [le64_length])]
      have h8 : P.length + 8 = (P ++ le64 b.length).length := by simp [le64_length]
      simp only [← List.append_assoc]
      rw [h8, List.append_assoc (P ++ le64 b.length), writeAt_append]
      rw [List.drop_left' (by simp)]
      simp [le64_length]
      omega
    rw [hstep, ih (P ++ le64 b.length ++ b)]
    simp [List.append_assoc]

theorem pae_eq (bb : List (List Nat)) :
    pae bb = le64 bb.length ++ (bb.map (fun b => le64 b.length ++ b)).flatten := by
  unfold pae
  have hinit : writeAt
      (List.replicate (8 + 8 * bb.length + (bb.map List.length).sum) 0) 0
      (le64 bb.length)
      = le64 bb.length ++
        List.replicate (8 * bb.length + (bb.map List.length).sum) 0 := by
    unfold writeAt
    have : 8 + 8 * bb.length + (bb.map List.length).sum
        = 8 + (8 * bb.length + (bb.map List.length).sum) := by ring
    rw [this, List.replicate_add]
    simp [le64_length, List.drop_left' (by simp : (List.replicate 8 (0:Nat)).length = 8)]
  simp only [hinit]
  have h8 : (8 : Nat) = (le64 bb.length).length := (le64_length bb.length).symm
  calc (bb.foldl paeStep
          (le64 bb.length ++
            List.replicate (8 * bb.length + (bb.map List.length).sum) 0, 8)).1
      = (bb.foldl paeStep
          (le64 bb.length ++
            List.replicate (8 * bb.length + (bb.map List.length).sum) 0,
           (le64 bb.length).length)).1 := by rw [← h8]
    _ = le64 bb.length ++ (bb.map (fun b => le64 b.length ++ b)).flatten :=
        pae_loop bb (le64 bb.length)

theorem le64_eq_le64Spec (n : Nat) : le64 n = le64Spec n := by
  unfold le64 le64Spec
  have h : n % 18446744073709551616 % 9223372036854775808
      = n % 9223372036854775808 :=
    Nat.mod_mod_of_dvd n (by norm_num)
  simp only [h]
  norm_num [List.range_succ]

/-- C6: For every ordered sequence of N byte strings, `pae` produces exactly
the 8-byte little-endian count of elements with the top bit cleared, then
for each element in order its 8-byte little-endian length with the top bit
cleared followed by the element's raw bytes, with no delimiters; as a Lean
function it is pure and total, so it cannot fail on any in-memory input. -/
theorem pae_matches_spec_format : ∀ bb : List (List Nat), pae bb = paeSpec bb := by
  intro bb
  rw [pae_eq]
  unfold paeSpec
  simp [le64_eq_le64Spec]

theorem paeBody_length (bb : List (List Nat)) :
    ((bb.map (fun b => le64 b.length ++ b)).flatten).length
      = 8 * bb.length + (bb.map List.length).sum := by
  induction bb with
  | nil => simp
  | cons b rest ih =>
    simp only [List.map_cons, List.flatten_cons, List.length_append, ih,
      List.length_cons, List.sum_cons, le64_length]
    ring

theorem pae_length (bb : List (List Nat)) :
    (pae bb).length = 8 + 8 * bb.length + (bb.map List.length).sum := by
  rw [pae_eq]
  simp only [List.length_append, le64_length, paeBody_length]
  ring

theorem le64_inj {m n : Nat} (hm : m < 2 ^ 63) (hn : n < 2 ^ 63)
    (h : le64 m = le64 n) : m = n := by
  unfold le64 at h
  simp only [List.cons.injEq, and_true] at h
  norm_num at hm hn
  omega

/-- The in-memory inputs on which the reference implementation can actually
run `pae`: the element count and every element length fit in a signed
64-bit integer. -/
def paeBounded (bb : List (List Nat)) : Prop :=
  bb.length < 2 ^ 63 ∧ ∀ b ∈ bb, b.length < 2 ^ 63

instance paeBounded_decidable (bb : List (List Nat)) : Decidable (paeBounded bb) := by
  unfold paeBounded; infer_instance

theorem paeBody_inj : ∀ bb1 bb2 : List (List Nat),
    bb1.length = bb2.length →
    (∀ b ∈ bb1, b.length < 2 ^ 63) → (∀ b ∈ bb2, b.length < 2 ^ 63) →
    (bb1.map (fun b => le64 b.length ++ b)).flatten
      = (bb2.map (fun b => le64 b.length ++ b)).flatten →
    bb1 = bb2 := by
  intro bb1
  induction bb1 with
  | nil =>
    intro bb2 hlen _ _ _
    exact (List.length_eq_zero.mp hlen.symm).symm ▸ rfl
  | cons b1 rest1 ih =>
    intro bb2 hlen hb1 hb2 h
    cases bb2 with
    | nil => simp at hlen
    | cons b2 rest2 =>
      simp only [List.map_cons, List.flatten_cons, List.append_assoc] at h
      have h1 := List.append_inj h (by simp [le64_length])
      have hlen12 : b1.length = b2.length :=
        le64_inj (hb1 b1 (by simp)) (hb2 b2 (by simp)) h1.1
      have h2 := List.append_inj h1.2 hlen12
      have hrest : rest1 = rest2 := by
        refine ih rest2 (by simpa using hlen) (fun b hb => hb1 b (by simp [hb]))
          (fun b hb => hb2 b (by simp [hb])) h2.2
      rw [h2.1, hrest]

/-- C7: `pae` never maps distinct sequences of byte strings to the same
buffer, for all in-memory inputs (all counts and lengths below `2^63`, the
range of non-negative Go `int` values, on which the masked length fields
are faithful); in particular, for every pair of non-empty byte strings `a`
and `b`, the encodings of `[a, b]`, `[a ++ b]` and `[a, "", b]` are three
pairwise distinct buffers. -/
theorem pae_injectivity :
    (∀ bb1 bb2 : List (List Nat), paeBounded bb1 → paeBounded bb2 →
      pae bb1 = pae bb2 → bb1 = bb2)
    ∧ ∀ a b : List Nat, a ≠ [] → b ≠ [] →
        pae [a, b] ≠ pae [a ++ b] ∧ pae [a ++ b] ≠ pae [a, [], b]
        ∧ pae [a, b] ≠ pae [a, [], b] := by
  constructor
  · intro bb1 bb2 h1 h2 h
    rw [pae_eq, pae_eq] at h
    have hsplit := List.append_inj h (by simp [le64_length])
    have hcount : bb1.length = bb2.length := le64_inj h1.1 h2.1 hsplit.1
    exact paeBody_inj bb1 bb2 hcount h1.2 h2.2 hsplit.2
  · intro a b _ _
    refine ⟨fun h => ?_, fun h => ?_, fun h => ?_⟩ <;>
    · have := congrArg List.length h
      simp only [pae_length] at this
      simp at this

/-- Witness for C7: the injectivity applied at `[[1],[2]]` against itself
and the pairwise distinctness applied at `a = [1]`, `b = [2]`. -/
theorem pae_injectivity_witness :
    ([[1],[2]] : List (List Nat)) = [[1],[2]] ∧ pae [[1],[2]] ≠ pae [[1,2]] :=
  ⟨pae_injectivity.1 [[1],[2]] [[1],[2]] (by decide) (by decide) rfl,
   (pae_injectivity.2 [1] [2] (by decide) (by decide)).1⟩

/-! ## Lemmas about `Encrypt` -/

theorem seedOf_length (r : RandSource) : (seedOf r).length = 24 := by
  unfold seedOf
  simp only [List.length_append, List.length_replicate, List.length_take]
  omega

theorem blake2bNewOk_seed (r : RandSource) :
    blake2bNewOk 24 (seedOf r).length = true := by
  rw [seedOf_length]
  decide

/-- C4: `Encrypt` returns an error exactly when the key is not 32 bytes
long (AEAD key construction fails) or the random read reports an error; in
particular the BLAKE2b construction with a 24-byte key and 24-byte output
never contributes a failure, so with a 32-byte key and a working random
source `Encrypt` succeeds for every message and footer; and whenever it
errors, the returned token is nil. -/
theorem encrypt_error_characterization (C : Crypto) (r : RandSource)
    (message key : List Nat) (footer : Option (List Nat)) :
    ((Encrypt C r message key footer).2 = true ↔ (key.length ≠ 32 ∨ r.err = true))
    ∧ ((Encrypt C r message key footer).2 = true →
        (Encrypt C r message key footer).1 = none)
    ∧ (key.length = 32 → r.err = false →
        ∃ t, (Encrypt C r message key footer).1 = some t) := by
  unfold Encrypt
  by_cases hk : key.length = 32 <;>
    cases he : r.err <;>
      simp [hk, he, blake2bNewOk_seed]

/-- Witness for C4: with an erroring random source the token is nil, and
with a 32-byte key and a working random source a token exists. -/
theorem encrypt_error_characterization_witness :
    ((Encrypt modelCrypto ⟨[], true⟩ [] [] none).1 = none)
    ∧ ∃ t, (Encrypt modelCrypto ⟨List.replicate 24 0, false⟩ []
        (List.replicate 32 0) none).1 = some t :=
  ⟨(encrypt_error_characterization modelCrypto ⟨[], true⟩ [] [] none).2.1
      (by decide),
   (encrypt_error_characterization modelCrypto ⟨List.replicate 24 0, false⟩ []
      (List.replicate 32 0) none).2.2 (by decide) rfl⟩

/-- Counterexample to C5 as stated: a random source that supplies zero of
the 24 seed bytes but reports no error (as an `io.Reader`-style hook may)
does not make `Encrypt` fail — a token is produced. -/
theorem encrypt_short_read_without_error_emits_token :
    (Encrypt modelCrypto ⟨[], false⟩ [] (List.replicate 32 0) none).2 = false
    ∧ ((Encrypt modelCrypto ⟨[], false⟩ [] (List.replicate 32 0) none).1).isSome
        = true := by
  constructor <;> rfl

/-- C5 amended: `Encrypt` aborts, producing no token, exactly when the
random read reports an error; the source checks only the returned error,
so a short read is fatal only when an error accompanies it (a short read
reported with a nil error proceeds over the zero-filled remainder of the
seed buffer). -/
theorem encrypt_rand_error_fails (C : Crypto) (r : RandSource)
    (message key : List Nat) (footer : Option (List Nat))
    (h : r.err = true) :
    Encrypt C r message key footer = (none, true) := by
  unfold Encrypt
  by_cases hk : key.length = 32 <;> simp [hk, h]

/-- Witness for the amended C5: an erroring random source yields
`(nil, error)` on a concrete call. -/
theorem encrypt_rand_error_fails_witness :
    Encrypt modelCrypto ⟨[1, 2], true⟩ [5] (List.replicate 32 0) (some [7])
      = (none, true) :=
  encrypt_rand_error_fails modelCrypto ⟨[1, 2], true⟩ [5]
    (List.replicate 32 0) (some [7]) rfl

/-! ## Lemmas about `Decrypt` -/

/-- C3: any token that does not begin with the exact 9 ASCII header bytes
`v2.local.` makes `Decrypt` return nil payload, nil footer and `ok = false`
(the embedding short-circuits before the base64 or AEAD stages). -/
theorem decrypt_header_rejection (C : Crypto) (token key : List Nat)
    (h : ¬ v2local <+: token) :
    Decrypt C token key = .ret none none false := by
  unfold Decrypt
  have hb : v2local.isPrefixOf token = false := by
    rw [← Bool.not_eq_true, List.isPrefixOf_iff_prefix]
    exact h
  simp [hb]

/-- Witness for C3: a concrete one-byte token without the header. -/
theorem decrypt_header_rejection_witness :
    Decrypt modelCrypto [120] [] = .ret none none false :=
  decrypt_header_rejection modelCrypto [120] [] (by decide)

/-- C2 is false of the code: the token consisting of the 9 header bytes
`v2.local.` alone has a body that base64-decodes to 0 bytes, and `Decrypt`
then faults on the slice expressions `raw[:24]` / `raw[24:]` instead of
returning `ok = false` — with any key, here a well-formed 32-byte one. -/
theorem decrypt_short_body_panics :
    Decrypt modelCrypto v2local (List.replicate 32 0)
      = .panics := by
  rfl

/-- The derived nonce of an `Encrypt` call: the 24-byte keyed BLAKE2b digest
of the message under the random seed. -/
def nonceOf (C : Crypto) (r : RandSource) (message : List Nat) : List Nat :=
  C.blake (seedOf r) message

/-- The sealed ciphertext of an `Encrypt` call with footer bytes `fB`:
AEAD-sealed message under the derived nonce, authenticating
`pae(h, nonce, fB)`. -/
def sealedOf (C : Crypto) (r : RandSource) (message key fB : List Nat) : List Nat :=
  C.aeadSeal key (nonceOf C r message) message
    (pae [v2local, nonceOf C r message, fB])

theorem encrypt_success_eq (C : Crypto) (r : RandSource)
    (message key : List Nat) (footer : Option (List Nat))
    (hk : key.length = 32) (hr : r.err = false) :
    Encrypt C r message key footer =
      (some (v2local ++
          rawURLEncode (nonceOf C r message ++
            sealedOf C r message key (footer.getD [])) ++
          (if 0 < (footer.getD []).length
           then 46 :: rawURLEncode (footer.getD []) else [])),
       false) := by
  simp [Encrypt, nonceOf, sealedOf, hk, hr, blake2bNewOk_seed]

theorem findIdx?_dot_of_not_mem (l : List Nat) (h : 46 ∉ l) :
    l.findIdx? (fun c => c == 46) = none := by
  rw [List.findIdx?_eq_none_iff]
  intro x hx
  simp only [beq_eq_false_iff_ne]
  exact fun e => h (e ▸ hx)

theorem findIdx?_dot_append (l1 l2 : List Nat) (h : 46 ∉ l1) :
    (l1 ++ 46 :: l2).findIdx? (fun c => c == 46) = some l1.length := by
  rw [List.findIdx?_append, findIdx?_dot_of_not_mem l1 h]
  simp

theorem decryptBody_of_encrypt (C : Crypto) (r : RandSource)
    (message key : List Nat) (fopt : Option (List Nat))
    (hk : key.length = 32) (hm : isBytes message) :
    decryptBody C key fopt
      (rawURLEncode (nonceOf C r message ++
        sealedOf C r message key (fopt.getD [])))
      = .ret (some message) fopt true := by
  have hn : (nonceOf C r message).length = 24 := C.blake_length _ _
  have hnb : isBytes (nonceOf C r message) := C.blake_bytes _ _
  have hsb : isBytes (sealedOf C r message key (fopt.getD [])) :=
    C.seal_bytes _ _ _ _ hk hn hm
  have hs : (sealedOf C r message key (fopt.getD [])).length
      = message.length + 16 := C.seal_length _ _ _ _ hk hn
  have hbytes : isBytes (nonceOf C r message ++
      sealedOf C r message key (fopt.getD [])) := by
    intro x hx
    rcases List.mem_append.mp hx with h | h
    · exact hnb x h
    · exact hsb x h
  have hlen : ¬ ((nonceOf C r message ++
      sealedOf C r message key (fopt.getD [])).length < 24) := by
    simp [hn, hs]
  unfold decryptBody
  rw [decodeBase64_encode _ hbytes]
  simp only [if_neg hlen, List.take_left' hn, List.drop_left' hn, hk]
  have hkk : ¬ ((32 : Nat) ≠ 32) := by omega
  simp only [if_neg hkk]
  unfold sealedOf
  rw [C.opn_seal _ _ _ _ hk hn]

/-- C1: for every 32-byte key, every message and every footer, when the
random source read succeeds, decrypting the token produced by `Encrypt`
with the same key returns the original message as payload, the original
footer bytes (a nil footer slice for an empty footer, matching Go's
`bytes.Equal` notion of equality used by the round-trip test), and
`ok = true`.  This holds for every AEAD/hash pair satisfying the
documented contract. -/
theorem decrypt_encrypt_roundtrip (C : Crypto) (r : RandSource)
    (message key : List Nat) (footer : Option (List Nat))
    (hk : key.length = 32) (hr : r.err = false)
    (hm : isBytes message) (hf : isBytes (footer.getD [])) :
    ∀ tok, (Encrypt C r message key footer).1 = some tok →
      Decrypt C tok key
        = .ret (some message)
            (if (footer.getD []).length = 0 then none
             else some (footer.getD [])) true := by
  intro tok htok
  rw [encrypt_success_eq C r message key footer hk hr] at htok
  have htok' := Option.some.inj htok
  subst htok'
  unfold Decrypt
  have hpre : v2local.isPrefixOf (v2local ++
      (rawURLEncode (nonceOf C r message ++
        sealedOf C r message key (footer.getD [])) ++
      (if 0 < (footer.getD []).length
       then 46 :: rawURLEncode (footer.getD []) else []))) = true := by
    rw [List.isPrefixOf_iff_prefix]
    rw [← List.append_assoc]
    exact (v2local ++ _).prefix_append _
  rw [← List.append_assoc] at hpre
  simp only [← List.append_assoc, hpre, if_true]
  rw [List.append_assoc, List.drop_left]
  by_cases hf0 : (footer.getD []).length = 0
  · have hfe : footer.getD [] = [] := List.length_eq_zero.mp hf0
    rw [hfe]
    have hnodot := findIdx?_dot_of_not_mem _
      (dot_not_mem_rawURLEncode (nonceOf C r message ++
        sealedOf C r message key []))
    have hbody := decryptBody_of_encrypt C r message key none hk hm
    simp only [Option.getD_none] at hbody
    simp [hnodot, hbody]
  · simp only [if_pos (by omega : 0 < (footer.getD []).length)]
    have hdot := findIdx?_dot_append
      (rawURLEncode (nonceOf C r message ++
        sealedOf C r message key (footer.getD [])))
      (rawURLEncode (footer.getD []))
      (dot_not_mem_rawURLEncode _)
    simp only [hdot]
    have hdrop : (rawURLEncode (nonceOf C r message ++
          sealedOf C r message key (footer.getD [])) ++
        46 :: rawURLEncode (footer.getD [])).drop
          ((rawURLEncode (nonceOf C r message ++
            sealedOf C r message key (footer.getD []))).length + 1)
        = rawURLEncode (footer.getD []) := by
      rw [show (rawURLEncode (nonceOf C r message ++
            sealedOf C r message key (footer.getD []))) ++
          46 :: rawURLEncode (footer.getD [])
          = (rawURLEncode (nonceOf C r message ++
              sealedOf C r message key (footer.getD [])) ++ [46]) ++
            rawURLEncode (footer.getD []) by simp]
      exact List.drop_left' (by simp)
    have htake : (rawURLEncode (nonceOf C r message ++
          sealedOf C r message key (footer.getD [])) ++
        46 :: rawURLEncode (footer.getD [])).take
          ((rawURLEncode (nonceOf C r message ++
            sealedOf C r message key (footer.getD []))).length)
        = rawURLEncode (nonceOf C r message ++
            sealedOf C r message key (footer.getD [])) :=
      List.take_left _ _
    rw [hdrop, decodeBase64_encode _ hf, htake]
    have := decryptBody_of_encrypt C r message key (some (footer.getD [])) hk hm
    simp only [Option.getD_some] at this
    dsimp only
    rw [this, if_neg hf0]

/-- Witness for C1: a concrete round trip — message `[104, 105]`, footer
`[102]`, all-zero 32-byte key, a working random source. -/
theorem decrypt_encrypt_roundtrip_witness :
    Decrypt modelCrypto
      ((Encrypt modelCrypto ⟨List.replicate 24 3, false⟩ [104, 105]
          (List.replicate 32 0) (some [102])).1.getD [])
      (List.replicate 32 0)
      = .ret (some [104, 105]) (some [102]) true :=
  decrypt_encrypt_roundtrip modelCrypto ⟨List.replicate 24 3, false⟩ [104, 105]
    (List.replicate 32 0) (some [102]) (by decide) rfl (by decide) (by decide)
    ((Encrypt modelCrypto ⟨List.replicate 24 3, false⟩ [104, 105]
        (List.replicate 32 0) (some [102])).1.getD []) rfl

/-- C8: every successful `Encrypt` emits
`header ++ base64url(nonce ++ sealed)`, followed by `"." ++
base64url(footer)` exactly when the footer is non-empty; the footer segment
base64url-decodes back to exactly the footer bytes supplied (the footer is
authenticated but never encrypted); and a nil footer and a zero-length
footer produce identical tokens under identical randomness. -/
theorem encrypt_token_framing (C : Crypto) (r : RandSource)
    (message key : List Nat) (footer : Option (List Nat))
    (hk : key.length = 32) (hr : r.err = false)
    (hf : isBytes (footer.getD [])) :
    ((Encrypt C r message key footer).1
      = some (v2local ++
          rawURLEncode (nonceOf C r message ++
            sealedOf C r message key (footer.getD [])) ++
          (if (footer.getD []).length = 0 then []
           else 46 :: rawURLEncode (footer.getD []))))
    ∧ decodeBase64 (rawURLEncode (footer.getD [])) = some (footer.getD [])
    ∧ Encrypt C r message key none = Encrypt C r message key (some []) := by
  refine ⟨?_, decodeBase64_encode _ hf, rfl⟩
  rw [encrypt_success_eq C r message key footer hk hr]
  by_cases hf0 : (footer.getD []).length = 0
  · simp [hf0]
  · have hpos : 0 < (footer.getD []).length := Nat.pos_of_ne_zero hf0
    simp [hf0, hpos]

/-- Witness for C8: concrete framing with footer `[102]`. -/
theorem encrypt_token_framing_witness :
    ((Encrypt modelCrypto ⟨List.replicate 24 0, false⟩ [1]
        (List.replicate 32 0) (some [102])).1
      = some (v2local ++
          rawURLEncode (nonceOf modelCrypto ⟨List.replicate 24 0, false⟩ [1] ++
            sealedOf modelCrypto ⟨List.replicate 24 0, false⟩ [1]
              (List.replicate 32 0) [102]) ++
          (if ([102] : List Nat).length = 0 then []
           else 46 :: rawURLEncode [102])))
    ∧ decodeBase64 (rawURLEncode [102]) = some [102]
    ∧ Encrypt modelCrypto ⟨List.replicate 24 0, false⟩ [1]
        (List.replicate 32 0) none
      = Encrypt modelCrypto ⟨List.replicate 24 0, false⟩ [1]
        (List.replicate 32 0) (some []) :=
  encrypt_token_framing modelCrypto ⟨List.replicate 24 0, false⟩ [1]
    (List.replicate 32 0) (some [102]) (by decide) rfl (by decide)

/-- C9: whenever `Decrypt` returns `ok = false` — for any failure cause —
both the returned payload and the returned footer are nil; no failure path
surfaces partial data. -/
theorem decrypt_failure_returns_nil (C : Crypto) (token key : List Nat)
    (p f : Option (List Nat))
    (h : Decrypt C token key = .ret p f false) : p = none ∧ f = none := by
  unfold Decrypt decryptBody at h
  dsimp only at h
  repeat' split at h
  all_goals (cases h; try exact ⟨rfl, rfl⟩)

/-- Witness for C9: applied to the concrete failing decode of the
headerless empty token. -/
theorem decrypt_failure_returns_nil_witness :
    (none : Option (List Nat)) = none ∧ (none : Option (List Nat)) = none :=
  decrypt_failure_returns_nil modelCrypto [] [] none none (by decide)
